import Mathlib

/-!
Verification development for the `ddproc` data-donation processing pipeline
(`ddproc/api.py`).  The pipeline has three phases:

* `load` (Classifier): scan the names of the entries of a zip archive, match
  each against a fixed ordered registry of regular expressions (one per
  platform), and collect a `FileMetadata` record per matched name.
* `replace` (Reconciler): filter the metadata list against a
  participant-replacement table loaded from CSV.
* `extract` (Extractor): re-open the archive, decode each matched entry's
  JSON body with the platform's decoder, and accumulate tagged tables.

Strings from the program are modelled as `List Char`.  Python's `re.match`
is modelled by a small backtracking regular-expression engine (`reRuns`)
covering exactly the constructs used by the registry patterns: literals,
the classes `.`, `\d`, `\w` (ASCII fragment of Python's semantics), greedy
`*`, `+`, `?` over a class, and named capture groups.  The engine returns
the list of all matches in Python's backtracking priority order (greedy
quantifiers try longer consumption first, alternatives of a sequence are
explored left to right), so its head is the match `re.match` finds.
-/

/-- Character classes occurring in the registry patterns.  `any` is the
regex `.` (anything except a newline), `digit` is `\d`, `word` is `\w`
(ASCII fragment). -/
inductive CharClass where
  | any : CharClass
  | digit : CharClass
  | word : CharClass
deriving DecidableEq

def CharClass.mem : CharClass → Char → Bool
  | .any, c => c.toNat ≠ 10
  | .digit, c => 48 ≤ c.toNat && c.toNat ≤ 57
  | .word, c =>
      (48 ≤ c.toNat && c.toNat ≤ 57) || (65 ≤ c.toNat && c.toNat ≤ 90) ||
      (97 ≤ c.toNat && c.toNat ≤ 122) || c.toNat = 95

/-- Regular expressions, as used by the filename patterns of the registry:
plain sequencing, single characters, character classes, greedy `*`/`+`/`?`
over a character class, and named capture groups. -/
inductive RE where
  | eps : RE
  | lit : Char → RE
  | cls : CharClass → RE
  | seq : RE → RE → RE
  | star : CharClass → RE
  | plus : CharClass → RE
  | opt : CharClass → RE
  | group : String → RE → RE

/-- Captured named groups of a match: group name, captured characters. -/
abbrev GroupCaps := List (String × List Char)

/-- Length of the longest prefix of `s` whose characters are all in `cl`. -/
def classRun (cl : CharClass) (s : List Char) : Nat :=
  (s.takeWhile cl.mem).length

/-- All ways a regex can consume a prefix of `s`, in Python's backtracking
priority order.  Each result is `(consumed, groups, rest)` with
`consumed ++ rest = s`. -/
def reRuns : RE → List Char → List (List Char × GroupCaps × List Char)
  | .eps, s => [([], [], s)]
  | .lit _, [] => []
  | .lit c, x :: xs => if x = c then [([x], [], xs)] else []
  | .cls _, [] => []
  | .cls cl, x :: xs => if cl.mem x then [([x], [], xs)] else []
  | .seq a b, s =>
      (reRuns a s).flatMap fun pa =>
        (reRuns b pa.2.2).map fun pb => (pa.1 ++ pb.1, pa.2.1 ++ pb.2.1, pb.2.2)
  | .star cl, s =>
      let n := classRun cl s
      (List.range (n + 1)).map fun i => (s.take (n - i), [], s.drop (n - i))
  | .plus cl, s =>
      let n := classRun cl s
      (List.range n).map fun i => (s.take (n - i), [], s.drop (n - i))
  | .opt cl, s =>
      match s with
      | [] => [([], [], [])]
      | x :: xs => if cl.mem x then [([x], [], xs), ([], [], x :: xs)] else [([], [], x :: xs)]
  | .group n a, s =>
      (reRuns a s).map fun pa => (pa.1, pa.2.1 ++ [(n, pa.1)], pa.2.2)

/-- Python's `regex.match(s)`: the highest-priority match anchored at the
start of `s` (not necessarily spanning all of `s`).  Returns the consumed
prefix (`match[0]`) and the named captures (`match.groupdict()`). -/
def reMatch (re : RE) (s : List Char) : Option (List Char × GroupCaps) :=
  (reRuns re s).head?.map fun r => (r.1, r.2.1)

/-- A sequence of literal characters. -/
def litStr (s : List Char) : RE :=
  s.foldr (fun c r => .seq (.lit c) r) .eps

/-- Right-nested sequence of regexes. -/
def seqs (l : List RE) : RE :=
  l.foldr .seq .eps

/-! ### The registry patterns (`Processor.__init__`) -/

/-- `.*participant-(?P<id>\d+\w?)_source-YouTube_key-\w+.json` -/
def youtubeRE : RE :=
  seqs [.star .any, litStr "participant-".toList,
        .group "id" (.seq (.plus .digit) (.opt .word)),
        litStr "_source-YouTube_key-".toList, .plus .word, .cls .any,
        litStr "json".toList]

/-- `.*participant-(?P<id>\d+\w?)_source-TikTok_key-\w+.json` -/
def tiktokRE : RE :=
  seqs [.star .any, litStr "participant-".toList,
        .group "id" (.seq (.plus .digit) (.opt .word)),
        litStr "_source-TikTok_key-".toList, .plus .word, .cls .any,
        litStr "json".toList]

/-- `.*participant-(?P<id>\d+\w?)_source-YouTube_key-(?P<timestamp>\d+)-questionnaire-donation.json` -/
def youtubeQRE : RE :=
  seqs [.star .any, litStr "participant-".toList,
        .group "id" (.seq (.plus .digit) (.opt .word)),
        litStr "_source-YouTube_key-".toList,
        .group "timestamp" (.plus .digit),
        litStr "-questionnaire-donation".toList, .cls .any,
        litStr "json".toList]

/-- `.*participant-(?P<id>\d+\w?)_source-TikTok_key-(?P<timestamp>\d+)-questionnaire-donation.json` -/
def tiktokQRE : RE :=
  seqs [.star .any, litStr "participant-".toList,
        .group "id" (.seq (.plus .digit) (.opt .word)),
        litStr "_source-TikTok_key-".toList,
        .group "timestamp" (.plus .digit),
        litStr "-questionnaire-donation".toList, .cls .any,
        litStr "json".toList]

/-- The default registry, in the insertion order of the `specs` dict. -/
def defaultSpecs : List (String × RE) :=
  [("youtube", youtubeRE), ("tiktok", tiktokRE),
   ("youtube-questionnaire", youtubeQRE), ("tiktok-questionnaire", tiktokQRE)]

/-! ### Classifier (`Processor.load`) -/

/-- ASCII lowercasing of a character, modelling Python's `str.lower` on the
characters the patterns can capture. -/
def lowerChar (c : Char) : Char :=
  if 65 ≤ c.toNat ∧ c.toNat ≤ 90 then Char.ofNat (c.toNat + 32) else c

def lowerStr (s : List Char) : List Char :=
  s.map lowerChar

/-- One classified archive entry: the dict built in the loop body of
`Processor.load` (lowercased captures, platform tag, and the stored
filename `match[0]`). -/
structure FileMetadata where
  id : List Char
  timestamp : Option (List Char)
  platform : String
  filename : List Char
deriving DecidableEq

/-- The dict `m` built from a successful match: groupdict with lowercased
keys and values, plus the platform and `match[0]`. -/
def toMeta (platform : String) (res : List Char × GroupCaps) : FileMetadata :=
  { id := lowerStr ((res.2.lookup "id").getD [])
    timestamp := (res.2.lookup "timestamp").map lowerStr
    platform := platform
    filename := res.1 }

/-- The inner loop of `Processor.load`: try each spec in registry order,
stop at the first match. -/
def classifyOne : List (String × RE) → List Char → Option FileMetadata
  | [], _ => none
  | (pl, re) :: rest, name =>
      match reMatch re name with
      | some res => some (toMeta pl res)
      | none => classifyOne rest name

/-- `Processor.load`: scan the archive's name list and collect the
classified metadata, in archive order. -/
def loadAux (specs : List (String × RE)) : List (List Char) → List FileMetadata
  | [] => []
  | n :: ns =>
      match classifyOne specs n with
      | some m => m :: loadAux specs ns
      | none => loadAux specs ns

/-! ### Reconciler (`Processor.replace`)

The replacement table is a CSV loaded by `pd.read_csv(replacement_file,
dtype=object, index_col="id")`: all cells are strings, the `id` column
becomes the index.  `RTable.cols` are the non-index column headers in
order, each row is its index value paired with its remaining cells.
Label lookups that hit a missing column raise (`KeyError` /
`AttributeError` in pandas), modelled with `Except`. -/

structure RTable where
  cols : List String
  rows : List (List Char × List (List Char))
deriving DecidableEq

/-- Cell of a row under a column header (`none` when the column is
absent). -/
def RTable.cellOf (t : RTable) (row : List Char × List (List Char)) (c : String) :
    Option (List Char) :=
  (t.cols.findIdx? (· == c)).bind fun i => row.2.get? i

/-- `m["id"] in r.index` -/
def RTable.hasId (t : RTable) (rid : List Char) : Bool :=
  t.rows.any fun row => row.1 == rid

/-- `r.loc[rid, c]` (first row with that index value). -/
def RTable.cell (t : RTable) (rid : List Char) (c : String) : Option (List Char) :=
  (t.rows.find? fun row => row.1 == rid).bind fun row => t.cellOf row c

/-- Python's `int(s)` on the string cells (optional sign, decimal digits). -/
def pyInt (s : List Char) : Option Int :=
  match s with
  | [] => none
  | '-' :: ds =>
      if !ds.isEmpty && ds.all CharClass.digit.mem then
        some (-(Int.ofNat (ds.foldl (fun a c => a * 10 + (c.toNat - 48)) 0)))
      else none
  | ds =>
      if ds.all CharClass.digit.mem then
        some (Int.ofNat (ds.foldl (fun a c => a * 10 + (c.toNat - 48)) 0))
      else none

/-- Errors the loop body of `Processor.replace` can raise. -/
inductive RErr where
  | missingColumn : String → RErr
  | badCell : List Char → RErr
deriving DecidableEq

/-- The cells selected by `r[r.replaces==m["id"]][m["platform"]].values`:
the platform column of the rows whose `replaces` cell equals `m`'s id. -/
def supersededVals (t : RTable) (m : FileMetadata) : List (List Char) :=
  (t.rows.filter fun row => t.cellOf row "replaces" == some m.id).map
    fun row => (t.cellOf row m.platform).getD []

/-- One iteration of the loop in `Processor.replace` for entry `m`:
`.ok none` means `m` is dropped (with a diagnostic), `.ok (some m')` means
`m'` is appended to the new metadata list. -/
def replaceStep (t : RTable) (m : FileMetadata) : Except RErr (Option FileMetadata) :=
  if t.hasId m.id then
    -- `int(r.loc[m["id"], m["platform"]])`
    match t.cell m.id m.platform with
    | none => .error (.missingColumn m.platform)
    | some v =>
        match pyInt v with
        | none => .error (.badCell v)
        | some i =>
            if i = 0 then
              .ok none      -- "skipping": replacement not applying to this platform
            else
              -- `new_id = str(r.loc[m["id"], "replaces"])` — still raises
              -- `KeyError` when the `replaces` column is missing.  The loop
              -- body then builds `new_m` (the id rewritten to `new_id`) and
              -- prints the "replacing" diagnostic, but never appends
              -- `new_m` to `new_metadata` (the only append is in the final
              -- `else` branch), so the entry is dropped.
              match t.cell m.id "replaces" with
              | none => .error (.missingColumn "replaces")
              | some _ => .ok none
  else
    -- `r[r.replaces==m["id"]][m["platform"]].values.astype(int).any()`
    if t.cols.any (· == "replaces") then
      if t.cols.any (· == m.platform) then
        if (supersededVals t m).any fun v => (pyInt v).isNone then
          .error (.badCell (((supersededVals t m).find? fun v => (pyInt v).isNone).getD []))
        else if (supersededVals t m).any fun v => (pyInt v).getD 0 ≠ 0 then
          .ok none          -- "skipping": superseded by some replacement
        else
          .ok (some m)
      else .error (.missingColumn m.platform)
    else .error (.missingColumn "replaces")

/-- The loop of `Processor.replace`: build the new metadata list, stopping
at the first raising row. -/
def replaceAll (t : RTable) : List FileMetadata → Except RErr (List FileMetadata)
  | [] => .ok []
  | m :: ms =>
      match replaceStep t m with
      | .error e => .error e
      | .ok o =>
          match replaceAll t ms with
          | .error e => .error e
          | .ok rest => .ok (match o with | some m' => m' :: rest | none => rest)

/-- `Processor.replace` as a whole: the identity when no replacement table
was supplied. -/
def reconcile : Option RTable → List FileMetadata → Except RErr (List FileMetadata)
  | none, ms => .ok ms
  | some t, ms => replaceAll t ms

/-- Errors of `pd.read_csv(..., index_col="id")`. -/
inductive LoadErr where
  | noIdColumn : LoadErr
deriving DecidableEq

/-- `pd.read_csv(replacement_file, dtype=object, index_col="id")`: fails
iff the header has no `id` column; performs no validation of the other
columns. -/
def loadTable (header : List String) (rows : List (List (List Char))) :
    Except LoadErr RTable :=
  match header.findIdx? (· == "id") with
  | none => .error .noIdColumn
  | some i =>
      .ok { cols := header.eraseIdx i
            rows := rows.map fun r => ((r.get? i).getD [], r.eraseIdx i) }

/-! ### Extractor (`Processor.extract` and the platform decoders)

JSON documents are modelled by `JVal`; objects are association lists in
key order (as `json.loads` produces).  `pd.DataFrame` applied to an array
of JSON objects is modelled as the list of its rows (`toTable`); the
claims exercise no other `DataFrame` input shape, so other shapes are
mapped to `none` (a decode failure, fatal for the run either way). -/

inductive JVal where
  | str : List Char → JVal
  | num : Int → JVal
  | jbool : Bool → JVal
  | null : JVal
  | arr : List JVal → JVal
  | obj : List (List Char × JVal) → JVal

abbrev Row := List (List Char × JVal)
abbrev Table := List Row

def toTable : JVal → Option Table
  | .arr xs => xs.mapM fun x => match x with | .obj kvs => some kvs | _ => none
  | _ => none

/-- Python's substring test `sub in s`. -/
def isSubstr (sub : List Char) : List Char → Bool
  | [] => sub.isEmpty
  | x :: rest => sub.isPrefixOf (x :: rest) || isSubstr sub rest

/-- The data-type keys recognised by `_extract_youtube`. -/
def ytDtypes : List (List Char) :=
  ["youtube_watch_history".toList, "youtube_search_history".toList,
   "youtube_subscriptions".toList]

/-- `Processor._extract_youtube`. -/
def extractYoutube : JVal → Option (List (List Char × Table))
  | .arr ds =>
      (ds.mapM (fun d =>
        (match d with
          | .obj kvs =>
              (kvs.filter fun kv => ytDtypes.contains kv.1).mapM fun kv =>
                (toTable kv.2).map fun t => (kv.1, t)
          | _ => none : Option (List (List Char × Table))))).map List.flatten
  | _ => none

/-- The marker substring and canonical name of `_extract_tiktok`. -/
def tiktokMarker : List Char := "tiktok_video_browsing_history".toList

/-- The key normalisation inside `_extract_tiktok`'s loop. -/
def tiktokName (k : List Char) : List Char :=
  if isSubstr tiktokMarker k then tiktokMarker else k

/-- `Processor._extract_tiktok`. -/
def extractTiktok : JVal → Option (List (List Char × Table))
  | .obj kvs => kvs.mapM fun kv => (toTable kv.2).map fun t => (tiktokName kv.1, t)
  | _ => none

/-- `Processor._extract_youtube_questionnaire`:
`pd.DataFrame(data.values(), columns=["answer"])`. -/
def extractYoutubeQuestionnaire : JVal → Option (List (List Char × Table))
  | .obj kvs =>
      some [("youtube_questionnaire".toList, kvs.map fun kv => [("answer".toList, kv.2)])]
  | _ => none

/-- `Processor._extract_tiktok_questionnaire`. -/
def extractTiktokQuestionnaire : JVal → Option (List (List Char × Table))
  | .obj kvs =>
      some [("tiktok_questionnaire".toList, kvs.map fun kv => [("answer".toList, kv.2)])]
  | _ => none

/-- The `processor` field of the default registry, keyed by platform. -/
def defaultProcessor (platform : String) : JVal → Option (List (List Char × Table)) :=
  if platform = "youtube" then extractYoutube
  else if platform = "tiktok" then extractTiktok
  else if platform = "youtube-questionnaire" then extractYoutubeQuestionnaire
  else if platform = "tiktok-questionnaire" then extractTiktokQuestionnaire
  else fun _ => none

/-- `table[c] = v` in pandas: overwrite the column if present, otherwise
append it. -/
def setCell (row : Row) (c : List Char) (v : JVal) : Row :=
  if row.any fun kv => kv.1 == c then
    row.map fun kv => if kv.1 == c then (c, v) else kv
  else row ++ [(c, v)]

/-- The column-tagging in `Processor.extract`: `table["id"] = m["id"]`,
then `table["timestamp"] = m["timestamp"]` when present. -/
def tagTable (m : FileMetadata) (t : Table) : Table :=
  let t1 := t.map fun row => setCell row "id".toList (.str m.id)
  match m.timestamp with
  | some ts => t1.map fun row => setCell row "timestamp".toList (.str ts)
  | none => t1

/-- The accumulator update: first table creates the key, later tables are
concatenated onto it. -/
def addTable (dfs : List (List Char × Table)) (dtype : List Char) (t : Table) :
    List (List Char × Table) :=
  if dfs.any fun kv => kv.1 == dtype then
    dfs.map fun kv => if kv.1 == dtype then (kv.1, kv.2 ++ t) else kv
  else dfs ++ [(dtype, t)]

/-- Errors `Processor.extract` can raise: `KeyError` from
`zip_ref.open` on a name absent from the archive, and any decoder
failure. -/
inductive XErr where
  | missingEntry : List Char → XErr
  | decodeFail : String → XErr
deriving DecidableEq

/-- `Processor.extract`: the archive is the association of entry names to
their parsed JSON bodies.  `dfs` is the accumulator dict. -/
def extractAll (archive : List (List Char × JVal))
    (proc : String → JVal → Option (List (List Char × Table))) :
    List FileMetadata → List (List Char × Table) → Except XErr (List (List Char × Table))
  | [], dfs => .ok dfs
  | m :: ms, dfs =>
      match archive.lookup m.filename with
      | none => .error (.missingEntry m.filename)
      | some data =>
          match proc m.platform data with
          | none => .error (.decodeFail m.platform)
          | some tables =>
              extractAll archive proc ms
                (tables.foldl (fun acc kt => addTable acc kt.1 (tagTable m kt.2)) dfs)

instance {ε α : Type} [DecidableEq ε] [DecidableEq α] : DecidableEq (Except ε α) :=
  fun x y =>
    match x, y with
    | .ok a, .ok b =>
        if h : a = b then .isTrue (by rw [h]) else .isFalse (by simp [h])
    | .error a, .error b =>
        if h : a = b then .isTrue (by rw [h]) else .isFalse (by simp [h])
    | .ok _, .error _ => .isFalse (by simp)
    | .error _, .ok _ => .isFalse (by simp)

/-- The named capture groups of a pattern, in capture order. -/
def groupNames : RE → List String
  | .eps | .lit _ | .cls _ | .star _ | .plus _ | .opt _ => []
  | .seq a b => groupNames a ++ groupNames b
  | .group n a => groupNames a ++ [n]

/-- `true` when every capture group named `nm` inside the pattern is a
plain digit run `\d+`. -/
def digitGroups (nm : String) : RE → Bool
  | .seq a b => digitGroups nm a && digitGroups nm b
  | .group n a =>
      (n != nm || (match a with | .plus .digit => true | _ => false)) && digitGroups nm a
  | _ => true

/-!
## Lemmas and theorems
-/

theorem replaceAll_cons (t : RTable) (m : FileMetadata) (ms : List FileMetadata) :
    replaceAll t (m :: ms) =
      match replaceStep t m with
      | .error e => .error e
      | .ok o =>
          match replaceAll t ms with
          | .error e => .error e
          | .ok rest => .ok (match o with | some m' => m' :: rest | none => rest) := rfl

theorem replaceAll_sound {t : RTable} {ms out : List FileMetadata} {m0 : FileMetadata}
    (h : replaceAll t ms = .ok out) (hm : m0 ∈ out) :
    ∃ m' ∈ ms, replaceStep t m' = .ok (some m0) := by
  induction ms generalizing out with
  | nil =>
      simp [replaceAll] at h
      subst h
      simp at hm
  | cons a as ih =>
      rw [replaceAll_cons] at h
      cases hs : replaceStep t a with
      | error e => rw [hs] at h; cases h
      | ok o =>
          rw [hs] at h
          cases hr : replaceAll t as with
          | error e => rw [hr] at h; cases h
          | ok rest =>
              rw [hr] at h
              cases o with
              | some b =>
                  simp only [Except.ok.injEq] at h
                  subst h
                  rcases List.mem_cons.mp hm with rfl | hm'
                  · exact ⟨a, List.mem_cons_self a as, hs⟩
                  · obtain ⟨m'', hmem, hstep⟩ := ih hr hm'
                    exact ⟨m'', List.mem_cons_of_mem a hmem, hstep⟩
              | none =>
                  simp only [Except.ok.injEq] at h
                  subst h
                  obtain ⟨m'', hmem, hstep⟩ := ih hr hm
                  exact ⟨m'', List.mem_cons_of_mem a hmem, hstep⟩

theorem replaceAll_complete {t : RTable} {ms out : List FileMetadata} {m m' : FileMetadata}
    (h : replaceAll t ms = .ok out) (hm : m ∈ ms) (hs : replaceStep t m = .ok (some m')) :
    m' ∈ out := by
  induction ms generalizing out with
  | nil => simp at hm
  | cons a as ih =>
      rw [replaceAll_cons] at h
      cases hs0 : replaceStep t a with
      | error e => rw [hs0] at h; cases h
      | ok o =>
          rw [hs0] at h
          cases hr : replaceAll t as with
          | error e => rw [hr] at h; cases h
          | ok rest =>
              rw [hr] at h
              rcases List.mem_cons.mp hm with rfl | hm'
              · rw [hs] at hs0
                injection hs0 with ho
                subst ho
                simp only [Except.ok.injEq] at h
                subst h
                exact List.mem_cons_self m' rest
              · have hrest := ih hr hm'
                cases o with
                | some b =>
                    simp only [Except.ok.injEq] at h
                    subst h
                    exact List.mem_cons_of_mem b hrest
                | none =>
                    simp only [Except.ok.injEq] at h
                    subst h
                    exact hrest

theorem replaceAll_of_forall_keep {t : RTable} {ms : List FileMetadata}
    (h : ∀ m ∈ ms, replaceStep t m = .ok (some m)) :
    replaceAll t ms = .ok ms := by
  induction ms with
  | nil => rfl
  | cons a as ih =>
      rw [replaceAll_cons, h a (List.mem_cons_self a as),
          ih fun m hm => h m (List.mem_cons_of_mem a hm)]

theorem replaceStep_some_eq {t : RTable} {m m0 : FileMetadata}
    (h : replaceStep t m = .ok (some m0)) : m0 = m := by
  unfold replaceStep at h
  split at h
  · split at h
    · cases h
    · split at h
      · cases h
      · split at h
        · injection h with h'
          cases h'
        · split at h
          · cases h
          · injection h with h'
            cases h'
  · split at h
    · split at h
      · split at h
        · cases h
        · split at h
          · injection h with h'
            cases h'
          · injection h with h'
            injection h' with h''
            exact h''.symm
      · cases h
    · cases h

theorem replaceStep_flag_true_drops {t : RTable} {m : FileMetadata} {v nid : List Char}
    {i : Int}
    (h1 : t.hasId m.id = true) (h2 : t.cell m.id m.platform = some v)
    (h3 : pyInt v = some i) (h4 : i ≠ 0) (h5 : t.cell m.id "replaces" = some nid) :
    replaceStep t m = .ok none := by
  simp [replaceStep, h1, h2, h3, h4, h5]

theorem replaceAll_ok_self {t : RTable} {ms out : List FileMetadata}
    (h : replaceAll t ms = .ok out) : replaceAll t out = .ok out := by
  apply replaceAll_of_forall_keep
  intro m hm
  obtain ⟨m', hm', hstep⟩ := replaceAll_sound h hm
  have he := replaceStep_some_eq hstep
  subst he
  exact hstep

theorem replaceStep_flag_false {t : RTable} {m : FileMetadata} {v : List Char}
    (h1 : t.hasId m.id = true) (h2 : t.cell m.id m.platform = some v)
    (h3 : pyInt v = some 0) :
    replaceStep t m = .ok none := by
  simp [replaceStep, h1, h2, h3]

theorem replaceStep_superseded {t : RTable} {m : FileMetadata}
    (h1 : t.hasId m.id = false)
    (h2 : t.cols.any (· == "replaces") = true)
    (h3 : t.cols.any (· == m.platform) = true)
    (h4 : ((supersededVals t m).any fun v => (pyInt v).isNone) = false)
    (h5 : ((supersededVals t m).any fun v => (pyInt v).getD 0 ≠ 0) = true) :
    replaceStep t m = .ok none := by
  simp [replaceStep, h1, h2, h3, h4]
  simpa using h5

/-- C1: the claimed behaviour (flag true → entry kept with id rewritten
to the rule's `replaces` value) does not happen in the code — the loop
builds `new_m` with the rewritten id and prints the "replacing"
diagnostic, but never appends `new_m` to `new_metadata`, so the entry is
dropped.  With rule `b: replaces=a, youtube=1`, the entry with id `b`
takes the flag-true branch (all its conditions evaluate as shown) yet
the reconciled output is empty: it contains neither the rewritten entry
nor the original. -/
theorem c1_rewrite_never_appended :
    (RTable.hasId ⟨["replaces", "youtube"], [("b".toList, ["a".toList, "1".toList])]⟩
        "b".toList = true) ∧
    (RTable.cell ⟨["replaces", "youtube"], [("b".toList, ["a".toList, "1".toList])]⟩
        "b".toList "youtube" = some "1".toList) ∧
    (pyInt "1".toList = some 1) ∧
    (RTable.cell ⟨["replaces", "youtube"], [("b".toList, ["a".toList, "1".toList])]⟩
        "b".toList "replaces" = some "a".toList) ∧
    (replaceAll ⟨["replaces", "youtube"], [("b".toList, ["a".toList, "1".toList])]⟩
        [{ id := "b".toList, timestamp := none, platform := "youtube",
           filename := "f.json".toList }] = .ok []) :=
  ⟨by decide, by decide, by decide, by decide, by decide⟩

/-- C4: a flag-false keyed entry is dropped by its own iteration, an
unkeyed entry superseded by a true-flagged rule is dropped by its own
iteration, and any dropped entry is absent from the reconciled output —
the pass never creates a new entry, so every output entry is an
unchanged input entry. -/
theorem c4_drop_cases :
    (∀ (t : RTable) (m : FileMetadata) (v : List Char),
        t.hasId m.id = true → t.cell m.id m.platform = some v → pyInt v = some 0 →
        replaceStep t m = .ok none) ∧
    (∀ (t : RTable) (m : FileMetadata),
        t.hasId m.id = false → t.cols.any (· == "replaces") = true →
        t.cols.any (· == m.platform) = true →
        ((supersededVals t m).any fun v => (pyInt v).isNone) = false →
        ((supersededVals t m).any fun v => (pyInt v).getD 0 ≠ 0) = true →
        replaceStep t m = .ok none) ∧
    (∀ (t : RTable) (ms out : List FileMetadata) (m : FileMetadata),
        replaceAll t ms = .ok out → replaceStep t m = .ok none →
        m ∉ out) := by
  refine ⟨fun t m v h1 h2 h3 => replaceStep_flag_false h1 h2 h3,
          fun t m h1 h2 h3 h4 h5 => replaceStep_superseded h1 h2 h3 h4 h5,
          fun t ms out m hall hdrop hmem => ?_⟩
  obtain ⟨m', hm', hstep⟩ := replaceAll_sound hall hmem
  have he := replaceStep_some_eq hstep
  subst he
  rw [hdrop] at hstep
  injection hstep with h'
  cases h' 

/-- C6: reconciliation is idempotent for a fixed replacement table — the
pass is a pure per-entry filter (nothing is ever rewritten or created),
so running it again on its own output returns that output unchanged, and
an erroring pass composed with itself is the same error. -/
theorem c6_reconcile_idempotent (t : RTable) (ms : List FileMetadata) :
    (replaceAll t ms).bind (replaceAll t) = replaceAll t ms := by
  cases h : replaceAll t ms with
  | error e => rfl
  | ok out => exact replaceAll_ok_self h

theorem findIdx_isSome_of_mem {l : List String} {a : String} (h : a ∈ l) :
    ∃ i, l.findIdx? (· == a) = some i := by
  have hs : (l.findIdx? (· == a)).isSome = true := by
    rw [List.findIdx?_isSome]
    exact List.any_eq_true.mpr ⟨a, h, by simp⟩
  exact Option.isSome_iff_exists.mp hs

theorem findIdx_eq_none_of_not_mem {l : List String} {a : String} (h : a ∉ l) :
    l.findIdx? (· == a) = none := by
  rw [List.findIdx?_eq_none_iff]
  intro x hx
  simp only [beq_eq_false_iff_ne, ne_eq]
  intro hc
  exact h (hc ▸ hx)

theorem any_beq_eq_false_of_not_mem {l : List String} {a : String} (h : a ∉ l) :
    (l.any (· == a)) = false := by
  rw [← Bool.not_eq_true, List.any_eq_true]
  rintro ⟨x, hx, hbeq⟩
  exact h ((beq_iff_eq.mp hbeq) ▸ hx)

theorem cell_eq_none_of_col_missing {t : RTable} {rid : List Char} {c : String}
    (h : c ∉ t.cols) : t.cell rid c = none := by
  unfold RTable.cell RTable.cellOf
  cases t.rows.find? fun row => row.1 == rid with
  | none => rfl
  | some row => simp [findIdx_eq_none_of_not_mem h]

/-- C2 (amended): loading the replacement table fails only if the `id`
index column is missing; a missing `replaces` or platform column is not
detected at load time but per-row during reconciliation, when a row
first needs that column. -/
theorem c2_lazy_columns :
    (∀ (header : List String) (rows : List (List (List Char))),
        "id" ∈ header → ∃ t, loadTable header rows = .ok t) ∧
    (∀ (t : RTable) (m : FileMetadata),
        t.hasId m.id = true → m.platform ∉ t.cols →
        replaceStep t m = .error (.missingColumn m.platform)) ∧
    (∀ (t : RTable) (m : FileMetadata),
        t.hasId m.id = false → "replaces" ∉ t.cols →
        replaceStep t m = .error (.missingColumn "replaces")) := by
  refine ⟨fun header rows h => ?_, fun t m h1 h2 => ?_, fun t m h1 h2 => ?_⟩
  · obtain ⟨i, hi⟩ := findIdx_isSome_of_mem h
    exact ⟨_, by unfold loadTable; rw [hi]⟩
  · simp [replaceStep, h1, cell_eq_none_of_col_missing h2]
  · simp [replaceStep, h1, any_beq_eq_false_of_not_mem h2]

theorem c2_lazy_columns_counterexample :
    (loadTable ["id", "replaces", "youtube"] [["b".toList, "a".toList, "1".toList]] =
      .ok ⟨["replaces", "youtube"], [("b".toList, ["a".toList, "1".toList])]⟩) ∧
    (replaceAll ⟨["replaces", "youtube"], [("b".toList, ["a".toList, "1".toList])]⟩
        [{ id := "b".toList, timestamp := none, platform := "tiktok",
           filename := "f.json".toList }] =
      .error (.missingColumn "tiktok")) ∧
    (replaceAll ⟨["replaces", "youtube"], [("b".toList, ["a".toList, "1".toList])]⟩
        [{ id := "b".toList, timestamp := none, platform := "youtube",
           filename := "f.json".toList }] = .ok []) := by
  refine ⟨by decide, by decide, by decide⟩

theorem c4_drop_cases_witness :
    (replaceStep ⟨["replaces", "youtube"], [("a".toList, ["z".toList, "0".toList])]⟩
      { id := "a".toList, timestamp := none, platform := "youtube",
        filename := "f.json".toList } = .ok none) ∧
    (replaceStep ⟨["replaces", "youtube"], [("b".toList, ["a".toList, "1".toList])]⟩
      { id := "a".toList, timestamp := none, platform := "youtube",
        filename := "f.json".toList } = .ok none) ∧
    ({ id := "a".toList, timestamp := none, platform := "youtube",
       filename := "f.json".toList } : FileMetadata) ∉ ([] : List FileMetadata) :=
  ⟨c4_drop_cases.1 ⟨["replaces", "youtube"], [("a".toList, ["z".toList, "0".toList])]⟩
      { id := "a".toList, timestamp := none, platform := "youtube",
        filename := "f.json".toList } "0".toList (by decide) (by decide) (by decide),
   c4_drop_cases.2.1 ⟨["replaces", "youtube"], [("b".toList, ["a".toList, "1".toList])]⟩
      { id := "a".toList, timestamp := none, platform := "youtube",
        filename := "f.json".toList } (by decide) (by decide) (by decide) (by decide)
      (by decide),
   c4_drop_cases.2.2 ⟨["replaces", "youtube"], [("a".toList, ["z".toList, "0".toList])]⟩
      [{ id := "a".toList, timestamp := none, platform := "youtube",
         filename := "f.json".toList }] []
      { id := "a".toList, timestamp := none, platform := "youtube",
        filename := "f.json".toList } (by decide) (by decide)⟩

theorem c2_lazy_columns_witness :
    (∃ t, loadTable ["id", "replaces", "youtube"] [] = .ok t) ∧
    (replaceStep ⟨["replaces", "youtube"], [("b".toList, ["a".toList, "1".toList])]⟩
      { id := "b".toList, timestamp := none, platform := "tiktok",
        filename := "f.json".toList } = .error (.missingColumn "tiktok")) ∧
    (replaceStep ⟨["youtube"], [("b".toList, ["1".toList])]⟩
      { id := "c".toList, timestamp := none, platform := "youtube",
        filename := "f.json".toList } = .error (.missingColumn "replaces")) :=
  ⟨c2_lazy_columns.1 ["id", "replaces", "youtube"] [] (by decide),
   c2_lazy_columns.2.1 ⟨["replaces", "youtube"], [("b".toList, ["a".toList, "1".toList])]⟩
      { id := "b".toList, timestamp := none, platform := "tiktok",
        filename := "f.json".toList } (by decide) (by decide),
   c2_lazy_columns.2.2 ⟨["youtube"], [("b".toList, ["1".toList])]⟩
      { id := "c".toList, timestamp := none, platform := "youtube",
        filename := "f.json".toList } (by decide) (by decide)⟩

theorem reRuns_groupNames {re : RE} {s : List Char}
    {r : List Char × GroupCaps × List Char} (h : r ∈ reRuns re s) :
    r.2.1.map Prod.fst = groupNames re := by
  induction re generalizing s r with
  | eps => simp [reRuns] at h; subst h; rfl
  | lit c =>
      cases s with
      | nil => simp [reRuns] at h
      | cons x xs =>
          simp only [reRuns] at h
          split at h
          · simp at h; subst h; rfl
          · simp at h
  | cls cl =>
      cases s with
      | nil => simp [reRuns] at h
      | cons x xs =>
          simp only [reRuns] at h
          split at h
          · simp at h; subst h; rfl
          · simp at h
  | seq a b iha ihb =>
      simp only [reRuns, List.mem_flatMap, List.mem_map] at h
      obtain ⟨pa, hpa, pb, hpb, rfl⟩ := h
      simp only [groupNames, List.map_append]
      rw [iha hpa, ihb hpb]
  | star cl =>
      simp only [reRuns, List.mem_map] at h
      obtain ⟨i, _, rfl⟩ := h
      rfl
  | plus cl =>
      simp only [reRuns, List.mem_map] at h
      obtain ⟨i, _, rfl⟩ := h
      rfl
  | opt cl =>
      cases s with
      | nil => simp [reRuns] at h; subst h; rfl
      | cons x xs =>
          simp only [reRuns] at h
          split at h
          · simp only [List.mem_cons, List.not_mem_nil, or_false] at h
            rcases h with rfl | rfl
            · rfl
            · rfl
          · simp at h; subst h; rfl
  | group n a ih =>
      simp only [reRuns, List.mem_map] at h
      obtain ⟨pa, hpa, rfl⟩ := h
      simp only [groupNames, List.map_append]
      rw [ih hpa]
      rfl

theorem take_all_of_le_classRun {cl : CharClass} {s : List Char} {k : Nat}
    (h : k ≤ classRun cl s) : (s.take k).all cl.mem = true := by
  induction s generalizing k with
  | nil => simp
  | cons x xs ih =>
      cases k with
      | zero => simp
      | succ j =>
          unfold classRun at h
          by_cases hx : cl.mem x
          · rw [List.takeWhile_cons_of_pos hx] at h
            simp only [List.length_cons, Nat.succ_le_succ_iff] at h
            simp only [List.take_succ_cons, List.all_cons, hx, Bool.true_and]
            exact ih h
          · rw [List.takeWhile_cons_of_neg hx] at h
            simp at h

theorem reRuns_plus_consumed {cl : CharClass} {s : List Char}
    {r : List Char × GroupCaps × List Char} (h : r ∈ reRuns (.plus cl) s) :
    r.1.all cl.mem = true := by
  simp only [reRuns, List.mem_map, List.mem_range] at h
  obtain ⟨i, hi, rfl⟩ := h
  exact take_all_of_le_classRun (Nat.sub_le _ _)

theorem reRuns_digitGroups {nm : String} {re : RE} {s : List Char}
    {r : List Char × GroupCaps × List Char} {v : List Char}
    (hdg : digitGroups nm re = true) (h : r ∈ reRuns re s) (hv : (nm, v) ∈ r.2.1) :
    v.all CharClass.digit.mem = true := by
  induction re generalizing s r with
  | eps => simp [reRuns] at h; subst h; simp at hv
  | lit c =>
      cases s with
      | nil => simp [reRuns] at h
      | cons x xs =>
          simp only [reRuns] at h
          split at h
          · simp at h; subst h; simp at hv
          · simp at h
  | cls cl =>
      cases s with
      | nil => simp [reRuns] at h
      | cons x xs =>
          simp only [reRuns] at h
          split at h
          · simp at h; subst h; simp at hv
          · simp at h
  | seq a b iha ihb =>
      simp only [digitGroups, Bool.and_eq_true] at hdg
      simp only [reRuns, List.mem_flatMap, List.mem_map] at h
      obtain ⟨pa, hpa, pb, hpb, rfl⟩ := h
      simp only [List.mem_append] at hv
      rcases hv with hv | hv
      · exact iha hdg.1 hpa hv
      · exact ihb hdg.2 hpb hv
  | star cl =>
      simp only [reRuns, List.mem_map] at h
      obtain ⟨i, _, rfl⟩ := h
      simp at hv
  | plus cl =>
      simp only [reRuns, List.mem_map] at h
      obtain ⟨i, _, rfl⟩ := h
      simp at hv
  | opt cl =>
      cases s with
      | nil => simp [reRuns] at h; subst h; simp at hv
      | cons x xs =>
          simp only [reRuns] at h
          split at h
          · simp only [List.mem_cons, List.not_mem_nil, or_false] at h
            rcases h with rfl | rfl
            · simp at hv
            · simp at hv
          · simp at h; subst h; simp at hv
  | group n a ih =>
      simp only [digitGroups, Bool.and_eq_true] at hdg
      simp only [reRuns, List.mem_map] at h
      obtain ⟨pa, hpa, rfl⟩ := h
      simp only [List.mem_append, List.mem_singleton] at hv
      rcases hv with hv | hv
      · exact ih hdg.2 hpa hv
      · have hn : nm = n := congrArg Prod.fst hv
        have hvv : v = pa.1 := congrArg Prod.snd hv
        subst hn
        subst hvv
        have hmatch := hdg.1
        simp only [bne_self_eq_false, Bool.false_or] at hmatch
        cases a with
        | plus cl =>
            cases cl with
            | digit => exact reRuns_plus_consumed hpa
            | any => simp at hmatch
            | word => simp at hmatch
        | eps => simp at hmatch
        | lit c => simp at hmatch
        | cls cl => simp at hmatch
        | seq a1 a2 => simp at hmatch
        | star cl => simp at hmatch
        | opt cl => simp at hmatch
        | group n2 a2 => simp at hmatch

theorem lookup_eq_none_of_keys {g : GroupCaps} {nm : String}
    (h : nm ∉ g.map Prod.fst) : g.lookup nm = none := by
  induction g with
  | nil => rfl
  | cons kv rest ih =>
      simp only [List.map_cons, List.mem_cons, not_or] at h
      have hb : (nm == kv.1) = false := beq_eq_false_iff_ne.mpr h.1
      obtain ⟨k, v⟩ := kv
      simp only [List.lookup] at *
      rw [hb]
      exact ih h.2

theorem lookup_isSome_of_keys {g : GroupCaps} {nm : String}
    (h : nm ∈ g.map Prod.fst) : (g.lookup nm).isSome = true := by
  induction g with
  | nil => simp at h
  | cons kv rest ih =>
      obtain ⟨k, v⟩ := kv
      simp only [List.map_cons, List.mem_cons] at h
      by_cases hb : nm == k
      · simp [List.lookup, hb]
      · simp only [List.lookup, hb]
        rcases h with h | h
        · exact absurd (beq_iff_eq.mpr h) (by simpa using hb)
        · exact ih h

theorem lookup_mem_pairs {g : GroupCaps} {nm : String} {v : List Char}
    (h : g.lookup nm = some v) : (nm, v) ∈ g := by
  induction g with
  | nil => cases h
  | cons kv rest ih =>
      obtain ⟨k, w⟩ := kv
      by_cases hb : nm == k
      · simp only [List.lookup, hb] at h
        injection h with h'
        subst h'
        have : nm = k := beq_iff_eq.mp hb
        subst this
        exact List.mem_cons_self _ _
      · simp only [List.lookup] at h
        rw [Bool.of_not_eq_true hb] at h
        exact List.mem_cons_of_mem _ (ih h)

theorem toNat_ofNat_valid (n : Nat) (h : n < 55296) : (Char.ofNat n).toNat = n := by
  have hv : n.isValidChar := Or.inl h
  simp [Char.ofNat, hv, Char.ofNatAux, Char.toNat, UInt32.toNat, BitVec.toNat_ofNatLt]

theorem lowerChar_digit {c : Char} (h : CharClass.digit.mem c = true) : lowerChar c = c := by
  simp [CharClass.mem] at h
  unfold lowerChar
  rw [if_neg]
  omega

theorem lowerChar_idem (c : Char) : lowerChar (lowerChar c) = lowerChar c := by
  unfold lowerChar
  by_cases h : 65 ≤ c.toNat ∧ c.toNat ≤ 90
  · rw [if_pos h]
    have : (Char.ofNat (c.toNat + 32)).toNat = c.toNat + 32 := by
      apply toNat_ofNat_valid; omega
    rw [if_neg]; omega
  · rw [if_neg h, if_neg h]

theorem lowerStr_idem (s : List Char) : lowerStr (lowerStr s) = lowerStr s := by
  unfold lowerStr
  rw [List.map_map]
  exact List.map_congr_left fun c _ => lowerChar_idem c

theorem lowerStr_of_all_digits {s : List Char} (h : s.all CharClass.digit.mem = true) :
    lowerStr s = s := by
  unfold lowerStr
  conv_rhs => rw [← List.map_id s]
  refine List.map_congr_left fun c hc => ?_
  exact lowerChar_digit (by exact List.all_eq_true.mp h c hc)

theorem classifyOne_eq_none {specs : List (String × RE)} {name : List Char}
    (h : ∀ p ∈ specs, reMatch p.2 name = none) : classifyOne specs name = none := by
  induction specs with
  | nil => rfl
  | cons p rest ih =>
      obtain ⟨pl, re⟩ := p
      simp only [classifyOne]
      rw [h (pl, re) (List.mem_cons_self _ _)]
      exact ih fun q hq => h q (List.mem_cons_of_mem _ hq)

theorem classifyOne_first {pre : List (String × RE)} {pl : String} {re : RE}
    {post : List (String × RE)} {name : List Char} {res : List Char × GroupCaps}
    (hpre : ∀ p ∈ pre, reMatch p.2 name = none) (hre : reMatch re name = some res) :
    classifyOne (pre ++ (pl, re) :: post) name = some (toMeta pl res) := by
  induction pre with
  | nil => simp only [List.nil_append, classifyOne, hre]
  | cons p rest ih =>
      obtain ⟨pl0, re0⟩ := p
      simp only [List.cons_append, classifyOne]
      rw [hpre (pl0, re0) (List.mem_cons_self _ _)]
      exact ih fun q hq => hpre q (List.mem_cons_of_mem _ hq)

theorem classifyOne_shape {specs : List (String × RE)} {name : List Char} {m : FileMetadata}
    (h : classifyOne specs name = some m) :
    ∃ p ∈ specs, ∃ res, reMatch p.2 name = some res ∧ m = toMeta p.1 res := by
  induction specs with
  | nil => cases h
  | cons p rest ih =>
      obtain ⟨pl, re⟩ := p
      simp only [classifyOne] at h
      cases hr : reMatch re name with
      | some res =>
          rw [hr] at h
          injection h with h'
          exact ⟨(pl, re), List.mem_cons_self _ _, res, hr, h'.symm⟩
      | none =>
          rw [hr] at h
          obtain ⟨q, hq, res, hres, hm⟩ := ih h
          exact ⟨q, List.mem_cons_of_mem _ hq, res, hres, hm⟩

theorem reMatch_runs {re : RE} {s : List Char} {res : List Char × GroupCaps}
    (h : reMatch re s = some res) :
    ∃ r ∈ reRuns re s, res = (r.1, r.2.1) := by
  unfold reMatch at h
  cases hl : reRuns re s with
  | nil => rw [hl] at h; cases h
  | cons a as =>
      rw [hl] at h
      simp only [List.head?_cons, Option.map_some'] at h
      injection h with h'
      exact ⟨a, List.mem_cons_self _ _, h'.symm⟩

theorem loadAux_append (specs : List (String × RE)) (ns1 ns2 : List (List Char)) :
    loadAux specs (ns1 ++ ns2) = loadAux specs ns1 ++ loadAux specs ns2 := by
  induction ns1 with
  | nil => rfl
  | cons n ns ih =>
      cases h : classifyOne specs n with
      | some m => simp only [List.cons_append, loadAux, h, List.append_eq, ih]
      | none => simp only [List.cons_append, loadAux, h, List.append_eq, ih]

/-- C5: the Classifier tries the registry patterns in order and tags an
entry with the first matching spec's platform; an entry matching no
pattern yields no metadata and no error; at most one metadata record is
produced per entry; and all captured values are lowercased (lowercasing
a produced id or timestamp again changes nothing). -/
theorem c5_first_match_wins :
    (∀ (specs : List (String × RE)) (name : List Char),
        (∀ p ∈ specs, reMatch p.2 name = none) → classifyOne specs name = none) ∧
    (∀ (pre : List (String × RE)) (pl : String) (re : RE) (post : List (String × RE))
        (name : List Char) (res : List Char × GroupCaps),
        (∀ p ∈ pre, reMatch p.2 name = none) → reMatch re name = some res →
        classifyOne (pre ++ (pl, re) :: post) name = some (toMeta pl res)) ∧
    (∀ (specs : List (String × RE)) (name : List Char),
        (loadAux specs [name]).length ≤ 1) ∧
    (∀ (specs : List (String × RE)) (name : List Char) (m : FileMetadata),
        classifyOne specs name = some m →
        lowerStr m.id = m.id ∧ ∀ ts, m.timestamp = some ts → lowerStr ts = ts) := by
  refine ⟨fun specs name h => classifyOne_eq_none h,
          fun pre pl re post name res hpre hre => classifyOne_first hpre hre,
          fun specs name => ?_, fun specs name m h => ?_⟩
  · unfold loadAux
    cases classifyOne specs name <;> simp [loadAux]
  · obtain ⟨p, _, res, _, rfl⟩ := classifyOne_shape h
    refine ⟨lowerStr_idem _, fun ts hts => ?_⟩
    simp only [toMeta] at hts
    cases hl : (res.2.lookup "timestamp") with
    | none => rw [hl] at hts; cases hts
    | some raw =>
        rw [hl] at hts
        injection hts with h'
        rw [← h']
        exact lowerStr_idem raw

theorem c5_first_match_wins_witness :
    classifyOne defaultSpecs "README.txt".toList = none ∧
    classifyOne defaultSpecs "participant-12A_source-TikTok_key-x9.json".toList =
      some (toMeta "tiktok" ("participant-12A_source-TikTok_key-x9.json".toList,
        [("id", "12A".toList)])) ∧
    (loadAux defaultSpecs ["participant-001_source-YouTube_key-abc.json".toList]).length ≤ 1 ∧
    lowerStr "12a".toList = "12a".toList :=
  ⟨c5_first_match_wins.1 defaultSpecs "README.txt".toList (by decide),
   c5_first_match_wins.2.1 [("youtube", youtubeRE)] "tiktok" tiktokRE
     [("youtube-questionnaire", youtubeQRE), ("tiktok-questionnaire", tiktokQRE)]
     "participant-12A_source-TikTok_key-x9.json".toList
     ("participant-12A_source-TikTok_key-x9.json".toList, [("id", "12A".toList)])
     (by decide) (by decide),
   c5_first_match_wins.2.2.1 defaultSpecs "participant-001_source-YouTube_key-abc.json".toList,
   (c5_first_match_wins.2.2.2 defaultSpecs
     "participant-12A_source-TikTok_key-x9.json".toList
     (toMeta "tiktok" ("participant-12A_source-TikTok_key-x9.json".toList,
       [("id", "12A".toList)])) (by decide)).1⟩

/-- C9: the Classifier preserves archive order — the metadata list is a
homomorphic image of the name list (appending archives appends their
classifications), and a single archive entry contributes at most one
record, namely its classification. -/
theorem c9_load_preserves_order :
    (∀ (specs : List (String × RE)) (ns1 ns2 : List (List Char)),
        loadAux specs (ns1 ++ ns2) = loadAux specs ns1 ++ loadAux specs ns2) ∧
    (∀ (specs : List (String × RE)) (n : List Char),
        loadAux specs [n] = (classifyOne specs n).toList) := by
  refine ⟨loadAux_append, fun specs n => ?_⟩
  unfold loadAux
  cases classifyOne specs n <;> simp [loadAux]

theorem classify_timestamp_iff :
    ∀ (name : List Char) (m : FileMetadata), classifyOne defaultSpecs name = some m →
      ((m.timestamp.isSome = true) ↔
        (m.platform = "youtube-questionnaire" ∨ m.platform = "tiktok-questionnaire")) ∧
      (∀ ts, m.timestamp = some ts → ts.all CharClass.digit.mem = true) := by
  intro name m h
  obtain ⟨p, hp, res, hres, rfl⟩ := classifyOne_shape h
  obtain ⟨r, hr, hres'⟩ := reMatch_runs hres
  subst hres'
  have hkeys : r.2.1.map Prod.fst = groupNames p.2 := reRuns_groupNames hr
  simp only [defaultSpecs, List.mem_cons, List.not_mem_nil, or_false] at hp
  rcases hp with rfl | rfl | rfl | rfl
  · -- youtube: no timestamp group
    have hnone : ((r.1, r.2.1).2.lookup "timestamp") = none :=
      lookup_eq_none_of_keys (by rw [hkeys]; decide)
    refine ⟨?_, ?_⟩
    · simp only [toMeta, hnone, Option.map_none', Option.isSome_none]
      constructor
      · intro hfalse; cases hfalse
      · rintro (hq | hq) <;> exact absurd hq (by decide)
    · intro ts hts
      simp only [toMeta, hnone, Option.map_none'] at hts
      cases hts
  · -- tiktok: no timestamp group
    have hnone : ((r.1, r.2.1).2.lookup "timestamp") = none :=
      lookup_eq_none_of_keys (by rw [hkeys]; decide)
    refine ⟨?_, ?_⟩
    · simp only [toMeta, hnone, Option.map_none', Option.isSome_none]
      constructor
      · intro hfalse; cases hfalse
      · rintro (hq | hq) <;> exact absurd hq (by decide)
    · intro ts hts
      simp only [toMeta, hnone, Option.map_none'] at hts
      cases hts
  · -- youtube-questionnaire
    have hsome : (((r.1, r.2.1).2).lookup "timestamp").isSome = true :=
      lookup_isSome_of_keys (by rw [hkeys]; decide)
    obtain ⟨raw, hraw⟩ := Option.isSome_iff_exists.mp hsome
    refine ⟨?_, ?_⟩
    · simp only [toMeta, hraw, Option.map_some', Option.isSome_some]
      exact ⟨fun _ => Or.inl trivial, fun _ => trivial⟩
    · intro ts hts
      simp only [toMeta, hraw, Option.map_some'] at hts
      injection hts with h'
      have hmem := lookup_mem_pairs hraw
      have hall : raw.all CharClass.digit.mem = true :=
        reRuns_digitGroups (by decide) hr hmem
      rw [← h', lowerStr_of_all_digits hall]
      exact hall
  · -- tiktok-questionnaire
    have hsome : (((r.1, r.2.1).2).lookup "timestamp").isSome = true :=
      lookup_isSome_of_keys (by rw [hkeys]; decide)
    obtain ⟨raw, hraw⟩ := Option.isSome_iff_exists.mp hsome
    refine ⟨?_, ?_⟩
    · simp only [toMeta, hraw, Option.map_some', Option.isSome_some]
      exact ⟨fun _ => Or.inr trivial, fun _ => trivial⟩
    · intro ts hts
      simp only [toMeta, hraw, Option.map_some'] at hts
      injection hts with h'
      have hmem := lookup_mem_pairs hraw
      have hall : raw.all CharClass.digit.mem = true :=
        reRuns_digitGroups (by decide) hr hmem
      rw [← h', lowerStr_of_all_digits hall]
      exact hall

theorem lookup_map_set {row : Row} {c : List Char} {v : JVal}
    (hany : (row.any fun kv => kv.1 == c) = true) :
    ((row.map fun kv => if kv.1 == c then (c, v) else kv).lookup c) = some v := by
  induction row with
  | nil => simp at hany
  | cons kv rest ih =>
      obtain ⟨k, w⟩ := kv
      by_cases hk : (k == c) = true
      · simp only [List.map_cons, hk, if_pos rfl]
        simp [List.lookup]
      · simp only [List.any_cons] at hany
        rw [Bool.of_not_eq_true hk] at hany
        simp only [Bool.false_or] at hany
        simp only [List.map_cons, hk]
        rw [if_neg (by simpa using hk)]
        simp only [List.lookup]
        have : (c == k) = false := by
          rw [beq_eq_false_iff_ne]
          intro hc
          exact hk (beq_iff_eq.mpr hc.symm)
        rw [this]
        exact ih hany

theorem lookup_append_single {row : Row} {c : List Char} {v : JVal}
    (hany : (row.any fun kv => kv.1 == c) = false) :
    ((row ++ [(c, v)]).lookup c) = some v := by
  induction row with
  | nil => simp [List.lookup]
  | cons kv rest ih =>
      obtain ⟨k, w⟩ := kv
      simp only [List.any_cons, Bool.or_eq_false_iff] at hany
      simp only [List.cons_append, List.lookup]
      have : (c == k) = false := by
        rw [beq_eq_false_iff_ne]
        intro hc
        rw [hc] at hany
        exact absurd hany.1 (by simp)
      rw [this]
      exact ih hany.2

theorem lookup_setCell_self (row : Row) (c : List Char) (v : JVal) :
    (setCell row c v).lookup c = some v := by
  unfold setCell
  by_cases h : (row.any fun kv => kv.1 == c) = true
  · rw [if_pos h]
    exact lookup_map_set h
  · rw [if_neg h]
    exact lookup_append_single (Bool.of_not_eq_true h)

theorem lookup_map_set_ne {row : Row} {c c' : List Char} {v : JVal}
    (h : (c' == c) = false) :
    ((row.map fun kv => if kv.1 == c then (c, v) else kv).lookup c') = row.lookup c' := by
  induction row with
  | nil => rfl
  | cons kv rest ih =>
      obtain ⟨k, w⟩ := kv
      by_cases hk : (k == c) = true
      · simp only [List.map_cons, hk, if_pos rfl]
        simp only [List.lookup]
        have hck : (c' == k) = false := by
          rw [beq_eq_false_iff_ne]
          intro hc
          rw [hc, beq_iff_eq.mp hk] at h
          simp at h
        rw [h, hck]
        exact ih
      · simp only [List.map_cons, hk]
        rw [if_neg (by simpa using hk)]
        simp only [List.lookup]
        cases hck : (c' == k) with
        | true => rfl
        | false => exact ih

theorem lookup_append_single_ne {row : Row} {c c' : List Char} {v : JVal}
    (h : (c' == c) = false) :
    ((row ++ [(c, v)]).lookup c') = row.lookup c' := by
  induction row with
  | nil => simp only [List.nil_append, List.lookup, h]
  | cons kv rest ih =>
      obtain ⟨k, w⟩ := kv
      simp only [List.cons_append, List.lookup]
      cases hck : (c' == k) with
      | true => rfl
      | false => exact ih

theorem lookup_setCell_ne (row : Row) {c c' : List Char} (v : JVal)
    (h : (c' == c) = false) :
    (setCell row c v).lookup c' = row.lookup c' := by
  unfold setCell
  split
  · exact lookup_map_set_ne h
  · exact lookup_append_single_ne h

/-- C10: a classified entry carries a timestamp exactly when its
platform is one of the two questionnaire platforms, the timestamp is all
digits, and the Extractor's tagging adds a `timestamp` column to a
table exactly when the metadata entry carries one. -/
theorem c10_timestamp_questionnaire :
    (∀ (name : List Char) (m : FileMetadata), classifyOne defaultSpecs name = some m →
        ((m.timestamp.isSome = true) ↔
          (m.platform = "youtube-questionnaire" ∨ m.platform = "tiktok-questionnaire")) ∧
        (∀ ts, m.timestamp = some ts → ts.all CharClass.digit.mem = true)) ∧
    (∀ (m : FileMetadata) (t : Table), m.timestamp = none →
        (tagTable m t).map (fun row => row.lookup "timestamp".toList) =
          t.map (fun row => row.lookup "timestamp".toList)) ∧
    (∀ (m : FileMetadata) (ts : List Char) (t : Table), m.timestamp = some ts →
        ∀ row ∈ tagTable m t, row.lookup "timestamp".toList = some (.str ts)) := by
  refine ⟨classify_timestamp_iff, fun m t hnone => ?_, fun m ts t hts row hrow => ?_⟩
  · simp only [tagTable, hnone, List.map_map]
    exact List.map_congr_left fun row _ => lookup_setCell_ne row _ (by decide)
  · simp only [tagTable, hts] at hrow
    obtain ⟨row1, _, rfl⟩ := List.mem_map.mp hrow
    exact lookup_setCell_self _ _ _

set_option maxRecDepth 16384 in
theorem c10_timestamp_questionnaire_witness :
    ((({ id := "001".toList, timestamp := some "99".toList,
         platform := "youtube-questionnaire",
         filename := "participant-001_source-YouTube_key-99-questionnaire-donation.json".toList } :
        FileMetadata).timestamp.isSome = true) ↔
      (("youtube-questionnaire" : String) = "youtube-questionnaire" ∨
       ("youtube-questionnaire" : String) = "tiktok-questionnaire")) ∧
    ("99".toList.all CharClass.digit.mem = true) ∧
    ((tagTable { id := "001".toList, timestamp := none, platform := "youtube",
                 filename := "f.json".toList } [[("url".toList, .str "x".toList)]]).map
        (fun row => row.lookup "timestamp".toList) =
      [[("url".toList, JVal.str "x".toList)]].map (fun row => row.lookup "timestamp".toList)) ∧
    (∀ row ∈ tagTable { id := "001".toList, timestamp := some "99".toList,
                        platform := "youtube-questionnaire", filename := "f.json".toList }
        [[("url".toList, JVal.str "x".toList)]],
      row.lookup "timestamp".toList = some (.str "99".toList)) :=
  ⟨(c10_timestamp_questionnaire.1
      "participant-001_source-YouTube_key-99-questionnaire-donation.json".toList
      { id := "001".toList, timestamp := some "99".toList,
        platform := "youtube-questionnaire",
        filename := "participant-001_source-YouTube_key-99-questionnaire-donation.json".toList }
      (by decide)).1,
   (c10_timestamp_questionnaire.1
      "participant-001_source-YouTube_key-99-questionnaire-donation.json".toList
      { id := "001".toList, timestamp := some "99".toList,
        platform := "youtube-questionnaire",
        filename := "participant-001_source-YouTube_key-99-questionnaire-donation.json".toList }
      (by decide)).2 "99".toList rfl,
   c10_timestamp_questionnaire.2.1
      { id := "001".toList, timestamp := none, platform := "youtube",
        filename := "f.json".toList } [[("url".toList, .str "x".toList)]] rfl,
   c10_timestamp_questionnaire.2.2
      { id := "001".toList, timestamp := some "99".toList,
        platform := "youtube-questionnaire", filename := "f.json".toList }
      "99".toList [[("url".toList, .str "x".toList)]] rfl⟩

theorem isPrefixOf_append_self (l post : List Char) : l.isPrefixOf (l ++ post) = true := by
  induction l with
  | nil => simp [List.isPrefixOf]
  | cons c cs ih => simp [List.isPrefixOf, ih]

theorem isSubstr_of_isPrefixOf {sub s : List Char} (h : sub.isPrefixOf s = true) :
    isSubstr sub s = true := by
  cases s with
  | nil =>
      cases sub with
      | nil => rfl
      | cons c cs => simp [List.isPrefixOf] at h
  | cons x rest => simp [isSubstr, h]

theorem isSubstr_surround (sub pre post : List Char) :
    isSubstr sub (pre ++ (sub ++ post)) = true := by
  induction pre with
  | nil =>
      simp only [List.nil_append]
      exact isSubstr_of_isPrefixOf (isPrefixOf_append_self sub post)
  | cons x pre' ih =>
      simp only [List.cons_append, List.append_eq, isSubstr, ih, Bool.or_true]

theorem extractTiktok_names {kvs : List (List Char × JVal)} {out : List (List Char × Table)}
    (h : extractTiktok (.obj kvs) = some out) :
    out.map Prod.fst = kvs.map fun kv => tiktokName kv.1 := by
  induction kvs generalizing out with
  | nil =>
      simp only [extractTiktok, List.mapM_nil] at h
      injection h with h'
      subst h'
      rfl
  | cons kv rest ih =>
      simp only [extractTiktok, List.mapM_cons] at h ih
      cases ht : toTable kv.2 with
      | none => rw [ht] at h; simp at h
      | some tb =>
          rw [ht] at h
          cases hr : rest.mapM (fun kv => (toTable kv.2).map fun t => (tiktokName kv.1, t)) with
          | none => rw [hr] at h; simp at h
          | some outr =>
              rw [hr] at h
              simp at h
              subst h
              simp only [List.map_cons]
              rw [ih hr]

/-- C7: every key of the TikTok decoder's input mapping that contains the
video-browsing-history marker substring is emitted under the canonical
data-type name, regardless of surrounding text; every other key is
emitted under its original name, in order. -/
theorem c7_tiktok_key_normalisation :
    (∀ (kvs : List (List Char × JVal)) (out : List (List Char × Table)),
        extractTiktok (.obj kvs) = some out →
        out.map Prod.fst = kvs.map fun kv => tiktokName kv.1) ∧
    (∀ pre post : List Char, tiktokName (pre ++ (tiktokMarker ++ post)) = tiktokMarker) ∧
    (∀ k : List Char, isSubstr tiktokMarker k = false → tiktokName k = k) := by
  refine ⟨fun kvs out h => extractTiktok_names h, fun pre post => ?_, fun k hk => ?_⟩
  · unfold tiktokName
    simp [isSubstr_surround]
  · unfold tiktokName
    simp [hk]

set_option maxRecDepth 16384 in
theorem c7_tiktok_key_normalisation_witness :
    ([("tiktok_video_browsing_history".toList,
        ([[("url".toList, JVal.str "x".toList)]] : Table)),
      ("tiktok_favorites".toList, ([] : Table))].map Prod.fst =
      [("tiktok_video_browsing_history_2023".toList,
        JVal.arr [JVal.obj [("url".toList, JVal.str "x".toList)]]),
       ("tiktok_favorites".toList, JVal.arr [])].map (fun kv => tiktokName kv.1)) ∧
    (tiktokName ("x".toList ++ (tiktokMarker ++ "2023".toList)) = tiktokMarker) ∧
    (tiktokName "tiktok_favorites".toList = "tiktok_favorites".toList) :=
  ⟨c7_tiktok_key_normalisation.1
      [("tiktok_video_browsing_history_2023".toList,
        JVal.arr [JVal.obj [("url".toList, JVal.str "x".toList)]]),
       ("tiktok_favorites".toList, JVal.arr [])]
      [("tiktok_video_browsing_history".toList, [[("url".toList, JVal.str "x".toList)]]),
       ("tiktok_favorites".toList, [])] (by rfl),
   c7_tiktok_key_normalisation.2.1 "x".toList "2023".toList,
   c7_tiktok_key_normalisation.2.2 "tiktok_favorites".toList (by decide)⟩

set_option maxRecDepth 16384 in
/-- C8: the concrete scenario of the spec. -/
theorem c8_end_to_end_scenario :
    loadAux defaultSpecs ["participant-001_source-YouTube_key-abc.json".toList] =
      [{ id := "001".toList, timestamp := none, platform := "youtube",
         filename := "participant-001_source-YouTube_key-abc.json".toList }] ∧
    extractAll
      [("participant-001_source-YouTube_key-abc.json".toList,
        .arr [.obj [("youtube_watch_history".toList,
          .arr [.obj [("url".toList, .str "x".toList)]])]])]
      defaultProcessor
      [{ id := "001".toList, timestamp := none, platform := "youtube",
         filename := "participant-001_source-YouTube_key-abc.json".toList }] [] =
      .ok [("youtube_watch_history".toList,
            [[("url".toList, .str "x".toList), ("id".toList, .str "001".toList)]])] :=
  ⟨by decide, by rfl⟩

set_option maxRecDepth 16384 in
/-- C3: the Classifier stores `match[0]` (the matched prefix), not the
archive entry name; a name with trailing characters after the matched
pattern yields a stored filename that is not an entry of the archive,
and extraction then fails with a missing-entry error. -/
theorem c3_truncated_filename :
    ((loadAux defaultSpecs ["participant-001_source-YouTube_key-abc.jsonX".toList]).map
        (fun m => m.filename) =
      ["participant-001_source-YouTube_key-abc.json".toList]) ∧
    ("participant-001_source-YouTube_key-abc.json".toList ∉
      ["participant-001_source-YouTube_key-abc.jsonX".toList]) ∧
    (extractAll [("participant-001_source-YouTube_key-abc.jsonX".toList, .arr [])]
        defaultProcessor
        (loadAux defaultSpecs ["participant-001_source-YouTube_key-abc.jsonX".toList]) [] =
      .error (.missingEntry "participant-001_source-YouTube_key-abc.json".toList)) :=
  ⟨by decide, by decide, by rfl⟩
